import Mathlib

/-!
Verification of the obsidian-mcp request-processing pipeline and
content-patching engine, shallowly embedded from `src/main.ts` and
`src/mcp-http-bridge.js`.

Documents are `List Char`.  The JavaScript regular expressions used by
`patchContent` are embedded as executable backtracking matchers that follow
the JS engine's semantics for the three concrete patterns used by the source:

* heading pattern  `^#{1,6}\s+<target>\s*$` (multiline),
* next-heading pattern `^#{1,6}\s+` (multiline),
* block pattern `([^\n]*?)\s*\^<target>\s*$` (multiline).

The JS class `\s` matches newlines, so these patterns can span lines; the
matchers below reproduce that.  The interpolated `<target>` is treated as a
literal string; the source passes it into `new RegExp(...)` unescaped, so the
embedding agrees with the source exactly for targets free of regex
metacharacters (`isRegexSafe` below), and theorems about heading/block
patches carry that hypothesis.
-/

set_option maxRecDepth 40000

namespace ObsidianMCP

abbrev Str := List Char

/-- Characters matched by the JavaScript RegExp character class `\s`. -/
def isJsWs (c : Char) : Bool :=
  c == ' ' || c == '\t' || c == '\n' || c == '\r' || c == '\x0b' || c == '\x0c' ||
  c == '\u00A0' || c == '\u1680' || ('\u2000' ≤ c && c ≤ '\u200A') ||
  c == '\u2028' || c == '\u2029' || c == '\u202F' || c == '\u205F' ||
  c == '\u3000' || c == '\uFEFF'

/-- Length of the maximal leading run of `\s` characters. -/
def wsRun : Str → Nat
  | [] => 0
  | c :: r => if isJsWs c then wsRun r + 1 else 0

/-- Length of the maximal leading run of `#` characters. -/
def hashRun : Str → Nat
  | [] => 0
  | c :: r => if c == '#' then hashRun r + 1 else 0

/-- Length of the maximal leading run of non-newline characters
(the longest extent the lazy group `[^\n]*?` could reach). -/
def nonNlRun : Str → Nat
  | [] => 0
  | c :: r => if c == '\n' then 0 else nonNlRun r + 1

/-- The ECMA-262 LineTerminator characters: LF, CR, LINE SEPARATOR,
PARAGRAPH SEPARATOR.  With the `m` flag, `^` matches after and `$` matches
before any of them. -/
def isLineTerm (c : Char) : Bool :=
  c == '\n' || c == '\r' || c == '\u2028' || c == '\u2029'

/-- Whether the position at the head of this suffix satisfies the multiline
anchor `$`: end of the string, or just before a LineTerminator. -/
def atLineEnd : Str → Bool
  | [] => true
  | c :: _ => isLineTerm c

/-- `startsList needle hay`: `needle` occurs literally at the head of `hay`. -/
def startsList : Str → Str → Bool
  | [], _ => true
  | _ :: _, [] => false
  | a :: as, b :: bs => a == b && startsList as bs

/-- Targets free of RegExp metacharacters; for these, interpolating the target
into the source's `new RegExp` patterns treats it as the literal text that the
matchers below look for. -/
def isRegexSafe (t : Str) : Bool :=
  t.all fun c =>
    !(c == '.' || c == '*' || c == '+' || c == '?' || c == '^' || c == '$' ||
      c == '(' || c == ')' || c == '[' || c == ']' || c == '|' || c == '\\' ||
      c == '\x7b' || c == '\x7d')

/-- Greedy `\s*` immediately followed by the anchor `$`: the largest `j ≤ fuel`
such that the first `j` characters are whitespace and position `j` is a line
end.  Called with `fuel = wsRun v`, i.e. the greedy extent, and backtracking
downward exactly as the JS engine does. -/
def wsStarToLineEndAux (v : Str) : Nat → Option Nat
  | 0 => if atLineEnd v then some 0 else none
  | j + 1 => if atLineEnd (v.drop (j + 1)) then some (j + 1) else wsStarToLineEndAux v j

/-- Match `\s*$` at the head of `v`, returning the number of characters the
greedy-with-backtracking `\s*` consumes. -/
def wsStarToLineEnd (v : Str) : Option Nat :=
  wsStarToLineEndAux v (wsRun v)

/-- Match `\s+<t>\s*$` at the head of `v` with the JS engine's greedy
backtracking on `\s+` (try the longest whitespace run first, shrink on
failure); returns the total number of characters consumed. -/
def wsPlusTargetAux (t v : Str) : Nat → Option Nat
  | 0 => none
  | i + 1 =>
    if startsList t (v.drop (i + 1)) then
      match wsStarToLineEnd ((v.drop (i + 1)).drop t.length) with
      | some jj => some ((i + 1) + t.length + jj)
      | none => wsPlusTargetAux t v i
    else wsPlusTargetAux t v i

/-- Match `\s+<t>\s*$` at the head of `v`. -/
def wsPlusTarget (t v : Str) : Option Nat :=
  wsPlusTargetAux t v (wsRun v)

/-- Match `#{1,6}\s+<t>\s*$` at the head of `u`, trying `j` hashes greedily
from `min (hashRun u) 6` down to 1 as the engine does; returns the match
length. -/
def headingHashAux (t u : Str) : Nat → Option Nat
  | 0 => none
  | j + 1 =>
    match wsPlusTarget t (u.drop (j + 1)) with
    | some len => some ((j + 1) + len)
    | none => headingHashAux t u j

/-- Match the heading pattern `#{1,6}\s+<t>\s*$` at the head of `u`
(the `^` anchor is checked by the caller). -/
def headingMatchAt (t u : Str) : Option Nat :=
  headingHashAux t u (min (hashRun u) 6)

/-- Leftmost match of `^#{1,6}\s+<t>\s*$` (multiline): scan positions left to
right, attempting a match only where the multiline `^` holds (string start or
just after a LineTerminator).  Returns `(index, length)` of the first match,
i.e. `match.index` and `match[0].length` of `fileContent.match(headingRegex)`. -/
def headingSearchAux (t : Str) : Str → Nat → Bool → Option (Nat × Nat)
  | [], pos, ls =>
    match (if ls then headingMatchAt t [] else none) with
    | some len => some (pos, len)
    | none => none
  | c :: rest, pos, ls =>
    match (if ls then headingMatchAt t (c :: rest) else none) with
    | some len => some (pos, len)
    | none => headingSearchAux t rest (pos + 1) (isLineTerm c)

/-- `fileContent.match(new RegExp("^#{1,6}\\s+" + target + "\\s*$", "m"))`,
returning `(match.index, match[0].length)`. -/
def headingSearch (t doc : Str) : Option (Nat × Nat) :=
  headingSearchAux t doc 0 true

/-- Whether `#{1,6}\s+` matches at the head of `u`: the engine backtracks the
hash counter from 6 downward, but any count short of the full hash run is
followed by another `#`, which is not `\s`; so the pattern matches here iff
the hash run has length 1..6 and is followed by a whitespace character. -/
def nextHeadingAt (u : Str) : Bool :=
  let r := hashRun u
  1 ≤ r && r ≤ 6 &&
    (match (u.drop r).head? with
     | some c => isJsWs c
     | none => false)

/-- Leftmost match index of `^#{1,6}\s+` (multiline), i.e.
`restOfContent.match(nextHeadingRegex).index`. -/
def nextHeadingSearchAux : Str → Nat → Bool → Option Nat
  | [], _, _ => none
  | c :: rest, pos, ls =>
    if ls && nextHeadingAt (c :: rest) then some pos
    else nextHeadingSearchAux rest (pos + 1) (isLineTerm c)

/-- Leftmost match index of `^#{1,6}\s+` (multiline) in `s`. -/
def nextHeadingSearch (s : Str) : Option Nat :=
  nextHeadingSearchAux s 0 true

/-- The `sectionEnd` computation of `patchContent` (src/main.ts lines
615-623): the index of the next heading match after `headingEnd`, or the
document length when there is none. -/
def sectionEndAfter (doc : Str) (headingEnd : Nat) : Nat :=
  match nextHeadingSearch (doc.drop headingEnd) with
  | some k => headingEnd + k
  | none => doc.length

/-- `fileContent.substring(headingIndex + match[0].length, sectionEnd)`. -/
def sectionContentOf (doc : Str) (headingEnd : Nat) : Str :=
  (doc.drop headingEnd).take (sectionEndAfter doc headingEnd - headingEnd)

/-- The heading branch of `patchContent` (src/main.ts lines 606-648 and the
identical src/mcp-http-bridge.js lines 721-763): locate the heading, compute
the section boundaries, build the new section per the operation, and
reassemble the document.  Thrown `Error`s are `Except.error`. -/
def patchHeading (doc : Str) (operation : String) (target content : Str) :
    Except String Str :=
  match headingSearch target doc with
  | none => .error ("Heading not found: " ++ String.mk target)
  | some (headingIndex, matchLen) =>
    let headingEnd := headingIndex + matchLen
    let sectionEnd := sectionEndAfter doc headingEnd
    let sectionContent := sectionContentOf doc headingEnd
    match (match operation with
           | "append" => some (sectionContent ++ content)
           | "prepend" => some (content ++ sectionContent)
           | "replace" => some content
           | _ => none) with
    | none => .error ("Invalid operation: " ++ operation)
    | some newSection => .ok (doc.take headingEnd ++ newSection ++ doc.drop sectionEnd)

/-- Match `\s*\^<t>\s*$` at the head of `v`, with the JS engine's greedy
backtracking on the first `\s*` (called with `fuel = wsRun v`); returns the
number of characters consumed. -/
def wsStarCaretAux (t v : Str) : Nat → Option Nat
  | 0 =>
    if startsList ('^' :: t) v then
      match wsStarToLineEnd (v.drop (1 + t.length)) with
      | some jj => some ((1 + t.length) + jj)
      | none => none
    else none
  | i + 1 =>
    if startsList ('^' :: t) (v.drop (i + 1)) then
      match wsStarToLineEnd ((v.drop (i + 1)).drop (1 + t.length)) with
      | some jj => some ((i + 1) + (1 + t.length) + jj)
      | none => wsStarCaretAux t v i
    else wsStarCaretAux t v i

/-- Try the lazy group `[^\n]*?` of the block pattern at increasing lengths
`g, g+1, ...` (`fuel` bounds the remaining growth; called with
`fuel = nonNlRun u`, the longest extent the group can reach).  Returns
`(group length, total match length)`. -/
def blockGroupAux (t u : Str) (g : Nat) : Nat → Option (Nat × Nat)
  | 0 =>
    (wsStarCaretAux t (u.drop g) (wsRun (u.drop g))).map (fun len => (g, g + len))
  | f + 1 =>
    match wsStarCaretAux t (u.drop g) (wsRun (u.drop g)) with
    | some len => some (g, g + len)
    | none => blockGroupAux t u (g + 1) f

/-- Match the block pattern `([^\n]*?)\s*\^<t>\s*$` at the head of `u`
(no start anchor; the caller scans every position).  Returns
`(group length, match length)`. -/
def blockMatchAt (t u : Str) : Option (Nat × Nat) :=
  blockGroupAux t u 0 (nonNlRun u)

/-- Leftmost match of the block pattern: positions are tried left to right
(the pattern has no `^` anchor).  Returns
`(match.index, group length, match[0].length)`. -/
def blockSearchAux (t : Str) : Str → Nat → Option (Nat × Nat × Nat)
  | [], pos =>
    (blockMatchAt t []).map (fun gl => (pos, gl.1, gl.2))
  | c :: rest, pos =>
    match blockMatchAt t (c :: rest) with
    | some (g, len) => some (pos, g, len)
    | none => blockSearchAux t rest (pos + 1)

/-- `fileContent.match(new RegExp("([^\\n]*?)\\s*\\^" + target + "\\s*$", "m"))`
returning `(match.index, match[1].length, match[0].length)`. -/
def blockSearch (t doc : Str) : Option (Nat × Nat × Nat) :=
  blockSearchAux t doc 0

/-- The block branch of `patchContent` (src/mcp-http-bridge.js lines
764-795): locate the block reference, rebuild the line per the operation with
the ` ^target` marker re-appended, and reassemble the document. -/
def patchBlock (doc : Str) (operation : String) (target content : Str) :
    Except String Str :=
  match blockSearch target doc with
  | none => .error ("Block reference not found: ^" ++ String.mk target)
  | some (blockStart, groupLen, matchLen) =>
    let blockEnd := blockStart + matchLen
    let blockContent := (doc.drop blockStart).take groupLen
    match (match operation with
           | "append" => some (blockContent ++ content ++ (' ' :: '^' :: target))
           | "prepend" => some (content ++ blockContent ++ (' ' :: '^' :: target))
           | "replace" => some (content ++ (' ' :: '^' :: target))
           | _ => none) with
    | none => .error ("Invalid operation: " ++ operation)
    | some newBlock => .ok (doc.take blockStart ++ newBlock ++ doc.drop blockEnd)

/-! ### Rate limiter (src/main.ts `checkRateLimit`, lines 251-269)

The `requestCounts` map is keyed by client address and each entry is handled
independently, so the limiter is embedded per client: the `Option RateRecord`
argument is `requestCounts.get(clientIp)` and the returned record is what the
source stores back for that client (on the deny path the source leaves the
entry untouched, and the function returns the unchanged record). -/

/-- One entry of `requestCounts`. -/
structure RateRecord where
  count : Nat
  resetTime : Nat
deriving DecidableEq, Repr

/-- `checkRateLimit` for one client: reset on a missing entry or an expired
window (`now > resetTime`), deny without incrementing at or above the
configured maximum, otherwise increment and allow. -/
def checkRateLimit (now maxReq : Nat) (limit : Option RateRecord) :
    Bool × RateRecord :=
  match limit with
  | none => (true, ⟨1, now + 60000⟩)
  | some l =>
    if now > l.resetTime then (true, ⟨1, now + 60000⟩)
    else if l.count ≥ maxReq then (false, l)
    else (true, ⟨l.count + 1, l.resetTime⟩)

/-- Run `checkRateLimit` over a list of request times for one client,
threading the stored record; returns the per-request allow/deny decisions and
the final record. -/
def rlProcess (maxReq : Nat) : List Nat → Option RateRecord →
    List Bool × Option RateRecord
  | [], st => ([], st)
  | t :: ts, st =>
    let step := checkRateLimit t maxReq st
    let rest := rlProcess maxReq ts (some step.2)
    (step.1 :: rest.1, rest.2)

/-! ### Gateway (src/main.ts `handleRequest`, lines 120-249)

The HTTP response is abstracted to the envelope level: each constructor of
`GatewayOut` stands for one of the distinct `res.writeHead`/`res.end` shapes
the source produces.  Handler execution (`executeMethod`) is passed in as an
`Except`: `.error` is a thrown error, the payload of `.ok` is opaque to the
gateway and represented by a numeric token. -/

/-- JSON values usable as a JSON-RPC `id`. -/
inductive JsonId where
  | num (n : Int)
  | str (s : String)
  | jnull
  | jbool (b : Bool)
deriving DecidableEq, Repr

/-- JavaScript truthiness of an `id` value (`request.id || null`). -/
def jsTruthyId : JsonId → Bool
  | .num n => n != 0
  | .str s => s != ""
  | .jnull => false
  | .jbool b => b

/-- `request.id || null`: a missing or falsy id becomes the JSON literal
`null`. -/
def idOrNull : Option JsonId → JsonId
  | some v => if jsTruthyId v then v else .jnull
  | none => .jnull

/-- A parsed JSON-RPC envelope: `method` is `none` when the field is missing
(`params` is irrelevant to the modelled control flow and omitted; handler
execution is a parameter). -/
structure Envelope where
  method : Option String
  id : Option JsonId
deriving DecidableEq, Repr

/-- JavaScript truthiness of `request.method` (`!request.method`): missing or
empty-string methods are falsy. -/
def methodFalsy : Option String → Bool
  | none => true
  | some s => s == ""

/-- Result token for a successful `executeMethod` (opaque to the gateway). -/
abbrev HandlerResult := Nat

/-- The distinct response shapes `handleRequest` can produce. -/
inductive GatewayOut where
  | preflight                                      -- OPTIONS: 200, no body
  | unauthorized                                   -- 401 Unauthorized
  | rateLimited                                    -- 429 Rate limit exceeded
  | health                                         -- 200 health payload
  | notFound                                       -- 404 Not found
  | parseError                                     -- 400, code -32700, id null
  | invalidRequest (id : JsonId)                   -- 400, code -32600
  | resultEnv (r : HandlerResult) (id : JsonId)    -- 200 result envelope
  | errorEnv (msg : String) (id : JsonId)          -- 200, code -32603
  | emptyOk                                        -- 200, empty body
deriving DecidableEq, Repr

/-- Lines 173-237 of src/main.ts: the body has parsed; validate `method`
(error envelope with `request.id || null` when falsy), then run the handler;
with no `id` on the envelope the result — or a thrown error — is discarded
and an empty 200 is sent; with an `id`, a result or `-32603` error envelope
echoes the id verbatim. -/
def rpcStage (env : Envelope) (exec : Except String HandlerResult) : GatewayOut :=
  if methodFalsy env.method then .invalidRequest (idOrNull env.id)
  else
    match exec with
    | .ok r =>
      match env.id with
      | none => .emptyOk
      | some i => .resultEnv r i
    | .error msg =>
      match env.id with
      | some i => .errorEnv msg i
      | none => .emptyOk

/-- Plugin settings fields used by `handleRequest`. -/
structure Settings where
  apiKey : String
  rateLimitPerMinute : Nat
deriving DecidableEq, Repr

/-- `handleRequest`: CORS preflight short-circuit, strict `X-API-Key`
comparison (`hdrKey` is `none` when the header is absent), per-client rate
limiting, then routing — `/health`, then `POST /rpc` with body parsing
(`body = none` is a JSON parse failure) and `rpcStage`.  The second component
is the client's `requestCounts` record after the call. -/
def handleRequest (st : Settings) (httpMethod url : String)
    (hdrKey : Option String) (now : Nat) (rl : Option RateRecord)
    (body : Option Envelope) (exec : Except String HandlerResult) :
    GatewayOut × Option RateRecord :=
  if httpMethod = "OPTIONS" then (.preflight, rl)
  else if hdrKey ≠ some st.apiKey then (.unauthorized, rl)
  else
    let rlr := checkRateLimit now st.rateLimitPerMinute rl
    if !rlr.1 then (.rateLimited, some rlr.2)
    else if url = "/health" then (.health, some rlr.2)
    else if httpMethod ≠ "POST" || url ≠ "/rpc" then (.notFound, some rlr.2)
    else
      match body with
      | none => (.parseError, some rlr.2)
      | some env => (rpcStage env exec, some rlr.2)

/-! ### Search engine (src/main.ts `simpleSearch`, lines 660-692)

The `while` loop advances with `indexOf(query, index + 1)`.  For an empty
query `indexOf` clamps to the content length and never returns `-1`, so the
source loops forever; the embedding gives the loop `content.length + 1` steps
of fuel — enough for every terminating run, since match positions strictly
increase and are bounded by the length — and returns `none` when the fuel is
exhausted, i.e. exactly when the source fails to terminate
(`searchLoop_nil_query_none` below). -/

/-- One entry of the `results` array. -/
structure SearchHit where
  file : String
  matched : Str    -- the source names this field `match` (a Lean keyword)
  position : Nat
deriving DecidableEq, Repr

/-- `content.toLowerCase()`: `String.prototype.toLowerCase` is a platform
builtin applying Unicode simple case mapping; it is modelled as the
character-wise map `lower` it performs (exact for every case pair that maps
one code point to one code point — all but U+0130, whose lowercase is two
code units and which is outside this model).  The universal theorems hold
for every such map; concrete statements instantiate `Char.toLower`,
which agrees with the builtin on ASCII. -/
def lowerStr (lower : Char → Char) (s : Str) : Str :=
  s.map lower

/-- `hay.indexOf(needle, start)` for JS strings: the search starts at
`min start hay.length`, and an empty needle matches there immediately. -/
def indexOfAux (needle hay : Str) (i : Nat) : Nat → Option Nat
  | 0 => if startsList needle (hay.drop i) then some i else none
  | f + 1 =>
    if startsList needle (hay.drop i) then some i
    else indexOfAux needle hay (i + 1) f

/-- `hay.indexOf(needle, start)`; `none` is JS `-1`. -/
def indexOfFrom (needle hay : Str) (start : Nat) : Option Nat :=
  indexOfAux needle hay (min start hay.length) (hay.length - min start hay.length)

/-- Build one search result: context window `substring(max(0, i - cl),
min(len, i + |query| + cl))` (Nat subtraction is the `max(0, ·)`), plus path
and match offset. -/
def mkHit (file : String) (content query : Str) (cl i : Nat) : SearchHit :=
  let start := i - cl
  let stop := min content.length (i + query.length + cl)
  ⟨file, (content.drop start).take (stop - start), i⟩

/-- The `while (index !== -1)` loop with `fuel` remaining iterations. -/
def searchLoop (lower : Char → Char) (file : String) (query content lc : Str)
    (cl : Nat) :
    Nat → Option Nat → List SearchHit → Option (List SearchHit)
  | _, none, acc => some acc.reverse
  | 0, some _, _ => none
  | f + 1, some i, acc =>
    searchLoop lower file query content lc cl f
      (indexOfFrom (lowerStr lower query) lc (i + 1))
      (mkHit file content query cl i :: acc)

/-- `simpleSearch` restricted to one document. -/
def simpleSearchDoc (lower : Char → Char) (file : String) (query content : Str)
    (cl : Nat) : Option (List SearchHit) :=
  let lc := lowerStr lower content
  searchLoop lower file query content lc cl (content.length + 1)
    (indexOfFrom (lowerStr lower query) lc 0) []

/-- `simpleSearch` over the vault's (markdown) files in order; `none` when
the scan of some file does not terminate. -/
def simpleSearch (lower : Char → Char) (files : List (String × Str))
    (query : Str) (cl : Nat) : Option (List SearchHit) :=
  match files with
  | [] => some []
  | (p, c) :: rest =>
    match simpleSearchDoc lower p query c cl, simpleSearch lower rest query cl with
    | some h1, some h2 => some (h1 ++ h2)
    | _, _ => none

/-- Spec-side reading of the search contract: the ascending list of all
positions at which the lowercased query occurs in the lowercased content
("one result per case-insensitive occurrence"). -/
def specOccurrences (lower : Char → Char) (query content : Str) : List Nat :=
  (List.range content.length).filter
    (fun j => startsList (lowerStr lower query) ((lowerStr lower content).drop j))

/-- Occurrence positions at or after position `i` (proof helper: the tail of
`specOccurrences` the search loop still has to visit). -/
def occFrom (lower : Char → Char) (query content : Str) (i : Nat) : List Nat :=
  (List.range content.length).filter
    (fun j => decide (i ≤ j) &&
      startsList (lowerStr lower query) ((lowerStr lower content).drop j))

/-! ### Frontmatter nested-value helpers (src/mcp-http-bridge.js lines
1017-1104)

The frontmatter object handed to `processFrontMatter` is a JSON-like value.
`JVal` covers the value kinds the helpers distinguish; objects are
association lists in insertion order, as JS objects enumerate string keys.
Property access on non-objects is modelled as `undefined` and property
writes on non-objects as no-ops; the source's recursion replaces every
non-object (and falsy) intermediate with `{}` before descending, so the only
unreachable JS behaviour is descending into an existing array intermediate
(`pathOk` below excludes that case in the theorems). -/

/-- JSON-like values stored in frontmatter, plus JS `undefined`. -/
inductive JVal where
  | str (s : String)
  | num (n : Int)
  | bool (b : Bool)
  | null
  | undefVal
  | arr (xs : List JVal)
  | obj (fields : List (String × JVal))
deriving Repr

/-- JavaScript truthiness (`!obj[key]`). -/
def jsTruthy : JVal → Bool
  | .undefVal => false
  | .null => false
  | .bool b => b
  | .num n => n != 0
  | .str s => s != ""
  | .arr _ => true
  | .obj _ => true

/-- `typeof v === "object"` (true for `null`, arrays, and plain objects). -/
def jsTypeofObject : JVal → Bool
  | .null => true
  | .arr _ => true
  | .obj _ => true
  | _ => false

/-- `Array.isArray`. -/
def isArr : JVal → Bool
  | .arr _ => true
  | _ => false

/-- Whether a value is a string (`typeof existing === "string"`). -/
def isStr : JVal → Bool
  | .str _ => true
  | _ => false

/-- `obj[key]` read: defined fields of plain objects; everything else reads
as `undefined` (array index properties are not modelled — see `pathOk`). -/
def getField : JVal → String → JVal
  | .obj fs, k =>
    match fs.lookup k with
    | some v => v
    | none => .undefVal
  | _, _ => .undefVal

/-- Update-or-append on an association list, preserving insertion order. -/
def setFieldList : List (String × JVal) → String → JVal → List (String × JVal)
  | [], k, v => [(k, v)]
  | (k', v') :: rest, k, v =>
    if k' = k then (k', v) :: rest else (k', v') :: setFieldList rest k v

/-- `obj[key] = v` on a plain object; writes to other value kinds are not
representable here and are never performed by the embedded helpers. -/
def setField : JVal → String → JVal → JVal
  | .obj fs, k, v => .obj (setFieldList fs k v)
  | o, _, _ => o

mutual

/-- String coercion used by `existing + parsedValue` when `existing` is a
string; matches JS `String(...)` on the value kinds of `JVal` (array elements
that are `null`/`undefined` stringify to the empty string). -/
def jsToString : JVal → String
  | .str s => s
  | .num n => toString n
  | .bool b => if b then "true" else "false"
  | .null => "null"
  | .undefVal => "undefined"
  | .arr xs => jsArrString xs
  | .obj _ => "[object Object]"

/-- Comma-joined `Array.prototype.toString`. -/
def jsArrString : List JVal → String
  | [] => ""
  | [v] => jsElemString v
  | v :: rest => jsElemString v ++ "," ++ jsArrString rest

/-- Array element stringification: `null` and `undefined` join as empty. -/
def jsElemString : JVal → String
  | .null => ""
  | .undefVal => ""
  | v => jsToString v

end

/-- Strip JSON whitespace (space, tab, newline, carriage return) from both
ends. -/
def trimJsonWs (s : Str) : Str :=
  let isW : Char → Bool := fun c => c == ' ' || c == '\t' || c == '\n' || c == '\r'
  ((s.dropWhile isW).reverse.dropWhile isW).reverse

/-- A non-empty run of decimal digits. -/
def parseNatDigits (s : Str) : Option Nat :=
  if s ≠ [] && s.all (fun c => c.isDigit) then
    some (s.foldl (fun acc c => acc * 10 + (c.toNat - '0'.toNat)) 0)
  else none

/-- An optionally-signed, non-empty run of decimal digits. -/
def parseIntLit (s : Str) : Option Int :=
  match s with
  | '-' :: rest => (parseNatDigits rest).map (fun n => -(n : Int))
  | _ => (parseNatDigits s).map (fun n => (n : Int))

/-- A double-quoted string literal without escapes or embedded quotes. -/
def parseStrLit (s : Str) : Option String :=
  match s with
  | '"' :: rest =>
    match rest.reverse with
    | '"' :: mid =>
      let body := mid.reverse
      if body.all (fun c => c ≠ '"' && c ≠ '\\' && c.toNat ≥ 32) then
        some (String.mk body)
      else none
    | _ => none
  | _ => none

/-- Model of `JSON.parse` (a platform builtin, not repository code) on the
flat-literal subset: surrounding JSON whitespace, `null`, `true`, `false`,
optionally-signed decimal integers, and double-quoted strings without escape
sequences.  Inputs outside this subset are treated as parse failures; every
concrete input used by the theorems below lies inside the subset, and the
universal theorems constrain only the parsed result. -/
def jsonParseLit (s : String) : Option JVal :=
  let t := trimJsonWs s.toList
  if t = "null".toList then some .null
  else if t = "true".toList then some (.bool true)
  else if t = "false".toList then some (.bool false)
  else
    match parseIntLit t with
    | some n => some (.num n)
    | none =>
      match parseStrLit t with
      | some str => some (.str str)
      | none => none

/-- `tryParseValue` (src/mcp-http-bridge.js lines 1018-1036) on the
flat-literal subset: try `JSON.parse`; on failure check the literal words
(all but `"undefined"` are unreachable after JSON.parse), then
`Number(value)` (decimal integers are already claimed by the JSON step),
else keep the string.  `JSON.parse` and `Number` are platform builtins whose
full value space (floats, nested data, escapes) `JVal` does not carry, so
the nested-value helpers below take the whole parse as a function parameter;
the universal theorems hold for every parse function — in particular for the
source's real `tryParseValue` — and the closed statements instantiate it
with this definition at inputs on which it provably agrees with the
builtins. -/
def tryParseValue (value : String) : JVal :=
  match jsonParseLit value with
  | some v => v
  | none =>
    if value = "true" then .bool true
    else if value = "false" then .bool false
    else if value = "null" then .null
    else if value = "undefined" then .undefVal
    else .str value

/-- `setNestedValue` (lines 1038-1050): create `{}` at absent or non-object
intermediates, overwrite the leaf with the parsed value.  `parse` is the
source's `this.tryParseValue` (see `tryParseValue` above). -/
def setNestedValue (parse : String → JVal) (o : JVal) (keys : List String)
    (value : String) : JVal :=
  match keys with
  | [] => o
  | [k] => setField o k (parse value)
  | k :: rest =>
    let child := getField o k
    let child' := if !(jsTruthy child) || !(jsTypeofObject child) then JVal.obj [] else child
    setField o k (setNestedValue parse child' rest value)

/-- `appendNestedValue` (lines 1052-1077): at the leaf, push onto an array,
concatenate onto a string, set an absent key, and otherwise coerce existing
and new value into a two-element array.  `parse` is the source's
`this.tryParseValue` (see `tryParseValue` above). -/
def appendNestedValue (parse : String → JVal) (o : JVal) (keys : List String)
    (value : String) : JVal :=
  match keys with
  | [] => o
  | [k] =>
    match getField o k with
    | .arr xs => setField o k (.arr (xs ++ [parse value]))
    | .str s => setField o k (.str (s ++ jsToString (parse value)))
    | .undefVal => setField o k (parse value)
    | v => setField o k (.arr [v, parse value])
  | k :: rest =>
    let child := getField o k
    let child' := if !(jsTruthy child) || !(jsTypeofObject child) then JVal.obj [] else child
    setField o k (appendNestedValue parse child' rest value)

/-- `prependNestedValue` (lines 1079-1104): mirror image of append. -/
def prependNestedValue (parse : String → JVal) (o : JVal) (keys : List String)
    (value : String) : JVal :=
  match keys with
  | [] => o
  | [k] =>
    match getField o k with
    | .arr xs => setField o k (.arr (parse value :: xs))
    | .str s => setField o k (.str (jsToString (parse value) ++ s))
    | .undefVal => setField o k (parse value)
    | v => setField o k (.arr [parse value, v])
  | k :: rest =>
    let child := getField o k
    let child' := if !(jsTruthy child) || !(jsTypeofObject child) then JVal.obj [] else child
    setField o k (prependNestedValue parse child' rest value)

/-- The dispatch of `patchContent` over `target_type` (src/main.ts lines
606-655 and src/mcp-http-bridge.js lines 722-823).  A document is the pair
of its raw text and its frontmatter mapping.  `heading` and `block` edit
the raw text and leave the frontmatter alone; `frontmatter` splits the
target on `.` into a key path and hands the frontmatter mapping to
`setNestedValue` / `appendNestedValue` / `prependNestedValue` inside the
host's `processFrontMatter`, leaving the raw text alone; any other target
type throws `Invalid target type`.  `parse` is the source's
`this.tryParseValue` (see `tryParseValue`). -/
def patchContent (parse : String → JVal) (doc : Str × JVal)
    (operation targetType : String) (target content : Str) :
    Except String (Str × JVal) :=
  if targetType = "heading" then
    (patchHeading doc.1 operation target content).map (fun t => (t, doc.2))
  else if targetType = "block" then
    (patchBlock doc.1 operation target content).map (fun t => (t, doc.2))
  else if targetType = "frontmatter" then
    let keys := (String.mk target).splitOn "."
    match operation with
    | "replace" => .ok (doc.1, setNestedValue parse doc.2 keys (String.mk content))
    | "append" => .ok (doc.1, appendNestedValue parse doc.2 keys (String.mk content))
    | "prepend" => .ok (doc.1, prependNestedValue parse doc.2 keys (String.mk content))
    | _ => .error ("Invalid operation: " ++ operation)
  else .error ("Invalid target type: " ++ targetType)

/-- Document store (vault) as an association list from path to document
(raw text and frontmatter mapping). -/
def lookupStore : List (String × (Str × JVal)) → String → Option (Str × JVal)
  | [], _ => none
  | (p, d) :: rest, q => if p = q then some d else lookupStore rest q

/-- Write one document back: `vault.modify` for the text arms, the write
done by `processFrontMatter` for the frontmatter arm. -/
def setStore : List (String × (Str × JVal)) → String → (Str × JVal) →
    List (String × (Str × JVal))
  | [], q, d' => [(q, d')]
  | (p, d) :: rest, q, d' =>
    if p = q then (p, d') :: rest else (p, d) :: setStore rest q d'

/-- The read-compute-write cycle of `patchContent` at store level: read the
file (a missing path throws before anything else), compute the patched
document, and only on success write it back.  A thrown error leaves the
store untouched and is reported as the second component. -/
def runPatch (parse : String → JVal) (store : List (String × (Str × JVal)))
    (filepath : String) (operation targetType : String)
    (target content : Str) :
    List (String × (Str × JVal)) × Option String :=
  match lookupStore store filepath with
  | none => (store, some ("File not found: " ++ filepath))
  | some doc =>
    match patchContent parse doc operation targetType target content with
    | .error e => (store, some e)
    | .ok newDoc => (setStore store filepath newDoc, none)

/-- Read a dot-path out of a frontmatter value, descending only through
plain objects (anything else reads as `undefined`). -/
def getNested : JVal → List String → JVal
  | o, [] => o
  | o, k :: rest => getNested (getField o k) rest

/-- Side condition for the nested-helper theorems: the path reaches no
existing array before its last key (the source would descend into the array
and set a string property on it, which `JVal` does not represent; any other
non-object intermediate is replaced by `{}` exactly as in the source). -/
def pathOk : JVal → List String → Bool
  | _, [] => true
  | _, [_] => true
  | o, k :: rest =>
    match getField o k with
    | .arr _ => false
    | .obj fs => pathOk (.obj fs) rest
    | _ => true

/-- The leaf-level effect of `appendNestedValue` (proof helper restating the
single-key branch). -/
def appendLeaf (parse : String → JVal) (existing : JVal) (value : String) : JVal :=
  match existing with
  | .arr xs => .arr (xs ++ [parse value])
  | .str s => .str (s ++ jsToString (parse value))
  | .undefVal => parse value
  | v => .arr [v, parse value]

/-! ## Theorems -/

/-! ### Bounds of the heading matchers -/

theorem startsList_le {t v : Str} (h : startsList t v = true) : t.length ≤ v.length := by
  induction t generalizing v with
  | nil => simp
  | cons a as ih =>
    cases v with
    | nil => simp [startsList] at h
    | cons b bs =>
      simp only [startsList, Bool.and_eq_true] at h
      simpa using Nat.succ_le_succ (ih h.2)

theorem wsRun_le (v : Str) : wsRun v ≤ v.length := by
  induction v with
  | nil => simp [wsRun]
  | cons c r ih =>
    simp only [wsRun, List.length_cons]
    split <;> omega

theorem hashRun_le (v : Str) : hashRun v ≤ v.length := by
  induction v with
  | nil => simp [hashRun]
  | cons c r ih =>
    simp only [hashRun, List.length_cons]
    split <;> omega

theorem wsStarToLineEndAux_le {v : Str} :
    ∀ {j jj : Nat}, wsStarToLineEndAux v j = some jj → jj ≤ j := by
  intro j
  induction j with
  | zero => intro jj h; simp only [wsStarToLineEndAux] at h; split at h <;> simp_all
  | succ j ih =>
    intro jj h
    simp only [wsStarToLineEndAux] at h
    split at h
    · simp_all
    · exact Nat.le_succ_of_le (ih h)

theorem wsStarToLineEnd_le {v : Str} {jj : Nat} (h : wsStarToLineEnd v = some jj) :
    jj ≤ v.length :=
  Nat.le_trans (wsStarToLineEndAux_le h) (wsRun_le v)

theorem wsPlusTargetAux_le {t v : Str} :
    ∀ {i len : Nat}, i ≤ v.length → wsPlusTargetAux t v i = some len → len ≤ v.length := by
  intro i
  induction i with
  | zero => intro len _ h; simp [wsPlusTargetAux] at h
  | succ i ih =>
    intro len hi h
    simp only [wsPlusTargetAux] at h
    split at h
    · rename_i hpre
      cases hws : wsStarToLineEnd ((v.drop (i + 1)).drop t.length) with
      | none => rw [hws] at h; exact ih (by omega) h
      | some jj =>
        rw [hws] at h
        have h1 : t.length ≤ (v.drop (i + 1)).length := startsList_le hpre
        have h2 : jj ≤ ((v.drop (i + 1)).drop t.length).length := wsStarToLineEnd_le hws
        simp only [List.length_drop] at h1 h2
        cases h
        omega
    · exact ih (by omega) h

theorem wsPlusTarget_le {t v : Str} {len : Nat} (h : wsPlusTarget t v = some len) :
    len ≤ v.length :=
  wsPlusTargetAux_le (wsRun_le v) h

theorem headingHashAux_le {t u : Str} :
    ∀ {j len : Nat}, j ≤ u.length → headingHashAux t u j = some len → len ≤ u.length := by
  intro j
  induction j with
  | zero => intro len _ h; simp [headingHashAux] at h
  | succ j ih =>
    intro len hj h
    simp only [headingHashAux] at h
    cases hw : wsPlusTarget t (u.drop (j + 1)) with
    | none => rw [hw] at h; exact ih (by omega) h
    | some len' =>
      rw [hw] at h
      have h1 : len' ≤ (u.drop (j + 1)).length := wsPlusTarget_le hw
      simp only [List.length_drop] at h1
      cases h
      omega

theorem headingMatchAt_le {t u : Str} {len : Nat} (h : headingMatchAt t u = some len) :
    len ≤ u.length :=
  headingHashAux_le (Nat.le_trans (Nat.min_le_left _ _) (hashRun_le u)) h

theorem headingSearchAux_bounds {t : Str} :
    ∀ {s : Str} {pos : Nat} {ls : Bool} {i len : Nat},
      headingSearchAux t s pos ls = some (i, len) → pos ≤ i ∧ i + len ≤ pos + s.length := by
  intro s
  induction s with
  | nil =>
    intro pos ls i len h
    simp only [headingSearchAux] at h
    split at h
    · rename_i hm
      cases ls with
      | true =>
        simp only [if_pos rfl] at hm
        cases h
        have := headingMatchAt_le hm
        simp at this
        omega
      | false => simp at hm
    · exact absurd h (by simp)
  | cons c rest ih =>
    intro pos ls i len h
    simp only [headingSearchAux] at h
    split at h
    · rename_i hm
      cases ls with
      | true =>
        simp only [if_pos rfl] at hm
        cases h
        have := headingMatchAt_le hm
        simp only [List.length_cons] at *
        omega
      | false => simp at hm
    · have := ih h
      simp only [List.length_cons]
      omega

theorem headingSearch_bounds {t doc : Str} {i len : Nat}
    (h : headingSearch t doc = some (i, len)) : i + len ≤ doc.length := by
  have := headingSearchAux_bounds h
  omega

theorem nextHeadingSearchAux_le :
    ∀ {s : Str} {pos : Nat} {ls : Bool} {k : Nat},
      nextHeadingSearchAux s pos ls = some k → pos ≤ k ∧ k ≤ pos + s.length := by
  intro s
  induction s with
  | nil => intro pos ls k h; simp [nextHeadingSearchAux] at h
  | cons c rest ih =>
    intro pos ls k h
    simp only [nextHeadingSearchAux] at h
    split at h
    · cases h; simp
    · have := ih h
      simp only [List.length_cons]
      omega

theorem nextHeadingSearch_le {s : Str} {k : Nat} (h : nextHeadingSearch s = some k) :
    k ≤ s.length := by
  have := nextHeadingSearchAux_le h
  omega

theorem sectionEnd_bounds {t doc : Str} {i len : Nat}
    (h : headingSearch t doc = some (i, len)) :
    i + len ≤ sectionEndAfter doc (i + len) ∧ sectionEndAfter doc (i + len) ≤ doc.length := by
  have hb := headingSearch_bounds h
  cases hn : nextHeadingSearch (doc.drop (i + len)) with
  | none =>
    simp only [sectionEndAfter, hn]
    omega
  | some k =>
    have hk := nextHeadingSearch_le hn
    simp only [List.length_drop] at hk
    simp only [sectionEndAfter, hn]
    omega

/-! ### Claims about the heading patch (C1, C9) -/

/-- C1 (amended): whenever the heading pattern finds a match for the target
in `doc` (ending at `i + len`, with section end `sectionEndAfter doc
(i + len)`), `replace` yields exactly prefix-up-to-the-heading-match, then
the supplied content, then the suffix from the section end; hence the region
between the two boundaries holds exactly the supplied content and every byte
outside it is byte-identical to `doc`.  (The section region includes the
newline that terminated the heading line, so the heading need not be
re-locatable in the result — see `claim_C1_counterexample`.) -/
theorem claim_C1 (doc target content : Str) (i len : Nat)
    (_hsafe : isRegexSafe target = true)
    (h : headingSearch target doc = some (i, len)) :
    patchHeading doc "replace" target content =
      .ok (doc.take (i + len) ++ content ++ doc.drop (sectionEndAfter doc (i + len)))
    ∧ (doc.take (i + len) ++ content ++ doc.drop (sectionEndAfter doc (i + len))).take (i + len)
        = doc.take (i + len)
    ∧ (doc.take (i + len) ++ content ++ doc.drop (sectionEndAfter doc (i + len))).drop
        (i + len + content.length) = doc.drop (sectionEndAfter doc (i + len)) := by
  have hb := sectionEnd_bounds h
  have hd := headingSearch_bounds h
  have hlen : (doc.take (i + len)).length = i + len := by
    simp only [List.length_take]
    omega
  refine ⟨?_, ?_, ?_⟩
  · simp [patchHeading, h]
  · rw [List.append_assoc, List.take_append_eq_append_take, hlen, Nat.sub_self,
      List.take_zero, List.append_nil, List.take_take, Nat.min_self]
  · rw [List.append_assoc, List.drop_append_eq_append_drop, hlen,
      List.drop_eq_nil_iff.mpr (by rw [hlen]; omega)]
    simp only [List.nil_append]
    rw [show i + len + content.length - (i + len) = content.length by omega,
      List.drop_append_eq_append_drop, List.drop_length, Nat.sub_self,
      List.drop_zero, List.nil_append]

/-- C1 counterexample: the claim as stated fails.  On `"# T\nbody"` with
target `T` and content `"new"`, the source produces `"# Tnew"`: the replaced
section begins with the newline that ended the heading line, so the heading
line is destroyed and no heading line matching `T` remains in the result —
the result has no section of `T` whose body could equal the supplied
content. -/
theorem claim_C1_counterexample :
    patchHeading ("# T\nbody".toList) "replace" ("T".toList) ("new".toList) =
      .ok ("# Tnew".toList)
    ∧ headingSearch ("T".toList) ("# Tnew".toList) = none := by
  constructor
  · rfl
  · rfl

/-- C1 witness: the amended theorem applied to the concrete document
`"# T\nold\n# U\nx"`. -/
theorem claim_C1_witness :
    isRegexSafe ("T".toList) = true
    ∧ headingSearch ("T".toList) ("# T\nold\n# U\nx".toList) = some (0, 3)
    ∧ patchHeading ("# T\nold\n# U\nx".toList) "replace" ("T".toList) ("new".toList) =
        .ok ("# Tnew# U\nx".toList) := by
  refine ⟨by rfl, by rfl, ?_⟩
  exact (claim_C1 ("# T\nold\n# U\nx".toList) ("T".toList) ("new".toList) 0 3
    (by rfl) (by rfl)).1.trans (by rfl)

/-- C9: with the heading present (the pattern matches), `append` with content
`C` produces exactly the document `replace` produces when handed the original
section body concatenated with `C` — append is replace-with-concatenation. -/
theorem claim_C9 (doc target content : Str) (i len : Nat)
    (_hsafe : isRegexSafe target = true)
    (h : headingSearch target doc = some (i, len)) :
    patchHeading doc "append" target content =
      patchHeading doc "replace" target (sectionContentOf doc (i + len) ++ content) := by
  simp [patchHeading, h]

/-- C9 witness: append vs replace-with-concatenation on a concrete
document. -/
theorem claim_C9_witness :
    isRegexSafe ("T".toList) = true
    ∧ headingSearch ("T".toList) ("# T\nold\n# U\nx".toList) = some (0, 3)
    ∧ patchHeading ("# T\nold\n# U\nx".toList) "append" ("T".toList) ("+".toList) =
        patchHeading ("# T\nold\n# U\nx".toList) "replace" ("T".toList)
          (sectionContentOf ("# T\nold\n# U\nx".toList) 3 ++ "+".toList) :=
  ⟨by rfl, by rfl,
    claim_C9 ("# T\nold\n# U\nx".toList) ("T".toList) ("+".toList) 0 3 (by rfl) (by rfl)⟩

/-! ### Claim about the block patch (C2) -/

/-- C2 (amended): `patch_content` with `target_type = block` rewrites the
first match of the block pattern — a lazily minimal run of non-newline
characters, optional whitespace (which, `\s` matching newlines, may cross a
line break), the `^target` marker, and trailing whitespace up to a line end.
`append` keeps the captured pre-marker content and adds the content before a
re-appended ` ^target`; `prepend` puts the content first; `replace` keeps
only the content and the marker; bytes outside the matched region are
untouched; and when the pattern matches nowhere the call fails with the
not-found error.  (When the marker line's pre-marker content is
whitespace-only and a previous line exists the match crosses the line break
and merges lines — `claim_C2_counterexample` — so the per-line reading of
the original claim does not hold.) -/
theorem claim_C2 (doc target content : Str) (q g len : Nat)
    (_hsafe : isRegexSafe target = true) :
    (blockSearch target doc = some (q, g, len) →
      patchBlock doc "append" target content =
        .ok (doc.take q ++ ((doc.drop q).take g ++ content ++ (' ' :: '^' :: target)) ++
          doc.drop (q + len))
      ∧ patchBlock doc "prepend" target content =
        .ok (doc.take q ++ (content ++ (doc.drop q).take g ++ (' ' :: '^' :: target)) ++
          doc.drop (q + len))
      ∧ patchBlock doc "replace" target content =
        .ok (doc.take q ++ (content ++ (' ' :: '^' :: target)) ++ doc.drop (q + len)))
    ∧ (blockSearch target doc = none → ∀ operation,
        patchBlock doc operation target content =
          .error ("Block reference not found: ^" ++ String.mk target)) := by
  constructor
  · intro h
    refine ⟨?_, ?_, ?_⟩ <;> simp [patchBlock, h]
  · intro h operation
    simp [patchBlock, h]

/-- C2 counterexample: the claim as stated fails.  In `"abc\n ^id\nrest"`
the block-reference line ` ^id` has empty pre-marker content, the pattern's
`\s*` crosses the line break, and append merges the previous line into the
block: the result is `"abcZ ^id\nrest"`, not the per-line
`"abc\nZ ^id\nrest"` the claim requires. -/
theorem claim_C2_counterexample :
    patchBlock ("abc\n ^id\nrest".toList) "append" ("id".toList) ("Z".toList) =
      .ok ("abcZ ^id\nrest".toList)
    ∧ ("abcZ ^id\nrest".toList : Str) ≠ ("abc\nZ ^id\nrest".toList : Str) := by
  constructor
  · rfl
  · decide

/-- C2 witness: the amended theorem at a document whose marker line has
non-whitespace pre-marker content (the per-line reading applies), and at a
document with no block reference (the not-found error). -/
theorem claim_C2_witness :
    patchBlock ("xy ^id\nmore".toList) "append" ("id".toList) ("Z".toList) =
      .ok ("xyZ ^id\nmore".toList)
    ∧ patchBlock ("xy ^id\nmore".toList) "replace" ("id".toList) ("R".toList) =
      .ok ("R ^id\nmore".toList)
    ∧ patchBlock ("no blocks here".toList) "append" ("id".toList) ("Z".toList) =
      .error ("Block reference not found: ^" ++ String.mk ("id".toList)) := by
  have h1 := (claim_C2 ("xy ^id\nmore".toList) ("id".toList) ("Z".toList) 0 2 6
    (by rfl)).1 (by rfl)
  have h2 := (claim_C2 ("xy ^id\nmore".toList) ("id".toList) ("R".toList) 0 2 6
    (by rfl)).1 (by rfl)
  have h3 := (claim_C2 ("no blocks here".toList) ("id".toList) ("Z".toList) 0 0 0
    (by rfl)).2 (by rfl) "append"
  exact ⟨h1.1.trans (by rfl), h2.2.2.trans (by rfl), h3⟩

/-! ### Claim about patch failure leaving the store unchanged (C6) -/

/-- C6: when the locator finds no heading (resp. block) match for the target
in the stored document, the `patch_content` call fails with the corresponding
not-found error and the store is returned unchanged — the write is only
reached on the success path.  Holds for every parse oracle, every operation
and every store holding the path. -/
theorem claim_C6 (parse : String → JVal) (store : List (String × (Str × JVal)))
    (filepath : String) (doc : Str × JVal) (operation : String)
    (target content : Str)
    (_hsafe : isRegexSafe target = true)
    (hlook : lookupStore store filepath = some doc) :
    (headingSearch target doc.1 = none →
      runPatch parse store filepath operation "heading" target content =
        (store, some ("Heading not found: " ++ String.mk target)))
    ∧ (blockSearch target doc.1 = none →
      runPatch parse store filepath operation "block" target content =
        (store, some ("Block reference not found: ^" ++ String.mk target))) := by
  constructor
  · intro h
    simp [runPatch, hlook, patchContent, patchHeading, h, Except.map]
  · intro h
    simp [runPatch, hlook, patchContent, patchBlock, h, Except.map]

/-- C6 witness: a one-file store, a missing heading and a missing block. -/
theorem claim_C6_witness :
    runPatch tryParseValue [("f.md", ("# A\nx".toList, JVal.obj []))] "f.md"
        "replace" "heading" ("B".toList) ("c".toList) =
      ([("f.md", ("# A\nx".toList, JVal.obj []))],
        some ("Heading not found: " ++ String.mk ("B".toList)))
    ∧ runPatch tryParseValue [("f.md", ("# A\nx".toList, JVal.obj []))] "f.md"
        "append" "block" ("id".toList) ("c".toList) =
      ([("f.md", ("# A\nx".toList, JVal.obj []))],
        some ("Block reference not found: ^" ++ String.mk ("id".toList))) := by
  have h1 := (claim_C6 tryParseValue [("f.md", ("# A\nx".toList, JVal.obj []))]
    "f.md" ("# A\nx".toList, JVal.obj []) "replace" ("B".toList) ("c".toList)
    (by rfl) (by rfl)).1 (by rfl)
  have h2 := (claim_C6 tryParseValue [("f.md", ("# A\nx".toList, JVal.obj []))]
    "f.md" ("# A\nx".toList, JVal.obj []) "append" ("id".toList) ("c".toList)
    (by rfl) (by rfl)).2 (by rfl)
  exact ⟨h1, h2⟩

/-! ### Claim about the rate limiter (C4) -/

theorem rlProcess_append (m : Nat) (a b : List Nat) (st : Option RateRecord) :
    rlProcess m (a ++ b) st =
      ((rlProcess m a st).1 ++ (rlProcess m b (rlProcess m a st).2).1,
       (rlProcess m b (rlProcess m a st).2).2) := by
  induction a generalizing st with
  | nil => simp [rlProcess]
  | cons t ts ih => simp [rlProcess, ih]

theorem rlProcess_within (m : Nat) :
    ∀ (ts : List Nat) (k R : Nat), (∀ t ∈ ts, t ≤ R) → k + ts.length ≤ m →
      rlProcess m ts (some ⟨k, R⟩) =
        (List.replicate ts.length true, some ⟨k + ts.length, R⟩) := by
  intro ts
  induction ts with
  | nil => intro k R _ _; simp [rlProcess]
  | cons t ts ih =>
    intro k R hbound hcap
    have ht : t ≤ R := hbound t (by simp)
    have hstep : checkRateLimit t m (some ⟨k, R⟩) = (true, ⟨k + 1, R⟩) := by
      simp only [checkRateLimit]
      rw [if_neg (by omega), if_neg (by simp only [List.length_cons] at hcap; omega)]
    have hrest := ih (k + 1) R (fun x hx => hbound x (by simp [hx]))
      (by simp only [List.length_cons] at hcap; omega)
    simp only [rlProcess, hstep, hrest, List.length_cons, List.replicate_succ]
    have hk : k + 1 + ts.length = k + (ts.length + 1) := by omega
    rw [hk]

/-- C4: per-client fixed-window rate limiting.  A first request creates the
record `(1, now + 60000)` and is allowed; inside the window a request below
the maximum increments and is allowed, and at or above the maximum is denied
with the record untouched; a request after the window end resets the record
to `(1, now + 60000)` and is allowed.  Consequently a run of `max` requests
inside one window all succeed, the `(max+1)`-th is denied, and the final
record still holds `max` (the configured maximum is positive: the settings
UI accepts only `limit > 0`). -/
theorem claim_C4 (now maxReq : Nat) (r : RateRecord) (ts : List Nat) (tl : Nat)
    (hmax : 1 ≤ maxReq) :
    checkRateLimit now maxReq none = (true, ⟨1, now + 60000⟩)
    ∧ (now ≤ r.resetTime → r.count < maxReq →
        checkRateLimit now maxReq (some r) = (true, ⟨r.count + 1, r.resetTime⟩))
    ∧ (now ≤ r.resetTime → maxReq ≤ r.count →
        checkRateLimit now maxReq (some r) = (false, r))
    ∧ (r.resetTime < now →
        checkRateLimit now maxReq (some r) = (true, ⟨1, now + 60000⟩))
    ∧ (ts.length = maxReq - 1 → (∀ t ∈ ts, t ≤ now + 60000) → tl ≤ now + 60000 →
        rlProcess maxReq (now :: (ts ++ [tl])) none =
          (List.replicate maxReq true ++ [false], some ⟨maxReq, now + 60000⟩)) := by
  refine ⟨by simp [checkRateLimit], ?_, ?_, ?_, ?_⟩
  · intro h1 h2
    simp only [checkRateLimit]
    rw [if_neg (by omega), if_neg (by omega)]
  · intro h1 h2
    simp only [checkRateLimit]
    rw [if_neg (by omega), if_pos (by omega)]
  · intro h1
    simp only [checkRateLimit]
    rw [if_pos (by omega)]
  · intro hlen hts htl
    have hfirst : checkRateLimit now maxReq none = (true, ⟨1, now + 60000⟩) := by
      simp [checkRateLimit]
    have hmid := rlProcess_within maxReq ts 1 (now + 60000) hts (by omega)
    have hlast : checkRateLimit tl maxReq (some ⟨1 + ts.length, now + 60000⟩) =
        (false, ⟨1 + ts.length, now + 60000⟩) := by
      simp only [checkRateLimit]
      rw [if_neg (by omega), if_pos (by omega)]
    simp only [rlProcess, hfirst, rlProcess_append, hmid, hlast]
    have hm : maxReq = ts.length + 1 := by omega
    subst hm
    simp [List.replicate_succ, Nat.add_comm]

/-- C4 witness: maximum 2 — first request creates the window, the second
increments, the third is denied without incrementing, a later request after
the window end resets, and a full window run yields allow, allow, deny. -/
theorem claim_C4_witness :
    checkRateLimit 0 2 none = (true, ⟨1, 60000⟩)
    ∧ checkRateLimit 0 2 (some ⟨1, 60000⟩) = (true, ⟨2, 60000⟩)
    ∧ checkRateLimit 0 2 (some ⟨2, 60000⟩) = (false, ⟨2, 60000⟩)
    ∧ checkRateLimit 70001 2 (some ⟨5, 70000⟩) = (true, ⟨1, 130001⟩)
    ∧ rlProcess 2 [0, 10, 20] none = ([true, true, false], some ⟨2, 60000⟩) := by
  refine ⟨(claim_C4 0 2 ⟨1, 60000⟩ [10] 20 (by decide)).1, ?_, ?_, ?_, ?_⟩
  · exact (claim_C4 0 2 ⟨1, 60000⟩ [10] 20 (by decide)).2.1 (by decide) (by decide)
  · exact (claim_C4 0 2 ⟨2, 60000⟩ [10] 20 (by decide)).2.2.1 (by decide) (by decide)
  · exact (claim_C4 70001 2 ⟨5, 70000⟩ [10] 20 (by decide)).2.2.2.1 (by decide)
  · exact ((claim_C4 0 2 ⟨1, 60000⟩ [10] 20 (by decide)).2.2.2.2 (by decide)
      (by decide) (by decide)).trans (by decide)

/-! ### Claims about the gateway (C5, C7, C10) -/

/-- C5 (amended): a parsed body with a truthy `method` and no `id` is a
notification: whatever the handler does — return a result or throw — the
gateway sends the empty 200 response, never a result or error envelope.
(A body with no `id` and a falsy `method` instead receives the `-32600`
envelope — see `claim_C5_counterexample`.) -/
theorem claim_C5 (st : Settings) (now : Nat) (rl : Option RateRecord)
    (m : String) (exec : Except String HandlerResult)
    (hm : m ≠ "")
    (hallow : (checkRateLimit now st.rateLimitPerMinute rl).1 = true) :
    (handleRequest st "POST" "/rpc" (some st.apiKey) now rl
        (some ⟨some m, none⟩) exec).1 = .emptyOk := by
  simp only [handleRequest, rpcStage, methodFalsy, hallow]
  cases exec <;> simp [hm]

/-- C5 counterexample: the claim as stated fails.  A parsed body with no
`id` and no `method` is covered by the claim's quantifier, yet the gateway
emits the `-32600` invalid-request error envelope rather than staying
silent. -/
theorem claim_C5_counterexample :
    (handleRequest ⟨"k", 60⟩ "POST" "/rpc" (some "k") 0 none
        (some ⟨none, none⟩) (.ok 0)).1 = .invalidRequest .jnull
    ∧ (GatewayOut.invalidRequest .jnull ≠ .emptyOk) := by
  constructor
  · rfl
  · decide

/-- C5 witness: a notification whose handler throws still gets the empty
200. -/
theorem claim_C5_witness :
    (handleRequest ⟨"k", 60⟩ "POST" "/rpc" (some "k") 0 none
        (some ⟨some "append_content", none⟩) (.error "boom")).1 = .emptyOk :=
  claim_C5 ⟨"k", 60⟩ 0 none "append_content" (.error "boom")
    (by decide) (by rfl)

/-- C7 (amended): a parsed `POST /rpc` body lacking a `method` draws the
`-32600` invalid-request response carrying `request.id || null`: the
request's own id when that id is truthy, and the JSON literal `null` when
the id is absent or falsy (`0`, `""`, `false`, `null`). -/
theorem claim_C7 (st : Settings) (now : Nat) (rl : Option RateRecord)
    (idOpt : Option JsonId) (exec : Except String HandlerResult)
    (hallow : (checkRateLimit now st.rateLimitPerMinute rl).1 = true) :
    (handleRequest st "POST" "/rpc" (some st.apiKey) now rl
        (some ⟨none, idOpt⟩) exec).1 = .invalidRequest (idOrNull idOpt)
    ∧ (∀ v, idOpt = some v → jsTruthyId v = true → idOrNull idOpt = v)
    ∧ (∀ v, idOpt = some v → jsTruthyId v = false → idOrNull idOpt = .jnull)
    ∧ (idOpt = none → idOrNull idOpt = .jnull) := by
  refine ⟨?_, ?_, ?_, ?_⟩
  · simp [handleRequest, rpcStage, methodFalsy, hallow]
  · intro v hv htr
    subst hv
    simp [idOrNull, htr]
  · intro v hv htr
    subst hv
    simp [idOrNull, htr]
  · intro hv
    subst hv
    rfl

/-- C7 counterexample: the claim as stated fails for falsy ids.  A body with
id `0` and no method gets an invalid-request envelope whose id is `null`,
not the `0` the claim requires. -/
theorem claim_C7_counterexample :
    (handleRequest ⟨"k", 60⟩ "POST" "/rpc" (some "k") 0 none
        (some ⟨none, some (.num 0)⟩) (.ok 0)).1 = .invalidRequest .jnull
    ∧ (JsonId.jnull ≠ JsonId.num 0) := by
  constructor
  · rfl
  · decide

/-- C7 witness: a truthy id `7` is echoed; an absent id yields `null`. -/
theorem claim_C7_witness :
    (handleRequest ⟨"k", 60⟩ "POST" "/rpc" (some "k") 0 none
        (some ⟨none, some (.num 7)⟩) (.ok 0)).1 = .invalidRequest (.num 7)
    ∧ (handleRequest ⟨"k", 60⟩ "POST" "/rpc" (some "k") 0 none
        (some ⟨none, none⟩) (.ok 0)).1 = .invalidRequest .jnull := by
  have h1 := claim_C7 ⟨"k", 60⟩ 0 none (some (.num 7)) (.ok 0) (by rfl)
  have h2 := claim_C7 ⟨"k", 60⟩ 0 none none (.ok 0) (by rfl)
  exact ⟨h1.1.trans (by rw [h1.2.1 (.num 7) rfl (by decide)]),
    h2.1.trans (by rw [h2.2.2.2 rfl])⟩

/-- C10: every non-preflight request whose `X-API-Key` header differs from
the configured secret (the absent header included) is rejected as
unauthorized with the rate state untouched; with the correct key the request
— `/health` probes included — first passes through the rate limiter, whose
updated record is stored whatever route follows: denial yields 429, and an
allowed health probe reaches the health route.  The consumed unit: a fresh
or expired window stores count 1, an in-window allowed request increments
the count by one. -/
theorem claim_C10 (st : Settings) (httpMethod url : String) (k : Option String)
    (now : Nat) (rl : Option RateRecord) (body : Option Envelope)
    (exec : Except String HandlerResult)
    (hm : httpMethod ≠ "OPTIONS") :
    (k ≠ some st.apiKey →
      handleRequest st httpMethod url k now rl body exec = (.unauthorized, rl))
    ∧ (k = some st.apiKey →
      (handleRequest st httpMethod url k now rl body exec).2 =
          some (checkRateLimit now st.rateLimitPerMinute rl).2
        ∧ ((checkRateLimit now st.rateLimitPerMinute rl).1 = false →
            (handleRequest st httpMethod url k now rl body exec).1 = .rateLimited)
        ∧ ((checkRateLimit now st.rateLimitPerMinute rl).1 = true → url = "/health" →
            (handleRequest st httpMethod url k now rl body exec).1 = .health))
    ∧ (∀ l, rl = some l → now ≤ l.resetTime → l.count < st.rateLimitPerMinute →
        (checkRateLimit now st.rateLimitPerMinute rl).2.count = l.count + 1)
    ∧ (rl = none → (checkRateLimit now st.rateLimitPerMinute rl).2.count = 1) := by
  refine ⟨?_, ?_, ?_, ?_⟩
  · intro hk
    simp [handleRequest, hm, hk]
  · intro hk
    subst hk
    refine ⟨?_, ?_, ?_⟩
    · simp only [handleRequest, if_neg hm]
      rw [if_neg (by simp)]
      cases hr : (checkRateLimit now st.rateLimitPerMinute rl).1 <;>
        cases body <;> simp [hr] <;> split <;> simp_all <;> split <;> simp_all
    · intro hden
      simp [handleRequest, hm, hden]
    · intro hall hurl
      subst hurl
      simp [handleRequest, hm, hall]
  · intro l hl h1 h2
    subst hl
    simp only [checkRateLimit]
    rw [if_neg (by omega), if_neg (by omega)]
  · intro hl
    subst hl
    rfl

/-- C10 witness: wrong key on a health probe is a 401 with the rate state
untouched; the right key on a health probe consumes one unit and reaches the
health route. -/
theorem claim_C10_witness :
    handleRequest ⟨"k", 60⟩ "GET" "/health" (some "bad") 0 (some ⟨3, 60000⟩)
        none (.ok 0) = (.unauthorized, some ⟨3, 60000⟩)
    ∧ (handleRequest ⟨"k", 60⟩ "GET" "/health" (some "k") 0 (some ⟨3, 60000⟩)
        none (.ok 0)).1 = .health
    ∧ (handleRequest ⟨"k", 60⟩ "GET" "/health" (some "k") 0 (some ⟨3, 60000⟩)
        none (.ok 0)).2 = some ⟨4, 60000⟩ := by
  have h1 := (claim_C10 ⟨"k", 60⟩ "GET" "/health" (some "bad") 0
    (some ⟨3, 60000⟩) none (.ok 0) (by decide)).1 (by decide)
  have h2 := (claim_C10 ⟨"k", 60⟩ "GET" "/health" (some "k") 0
    (some ⟨3, 60000⟩) none (.ok 0) (by decide)).2.1 rfl
  exact ⟨h1, h2.2.2 (by rfl) rfl, h2.1.trans (by rfl)⟩

/-! ### Claim about frontmatter append (C3) -/

theorem lookup_setFieldList (fs : List (String × JVal)) (k : String) (v : JVal) :
    (setFieldList fs k v).lookup k = some v := by
  induction fs with
  | nil => simp [setFieldList, List.lookup]
  | cons p rest ih =>
    obtain ⟨k', v'⟩ := p
    by_cases h : k' = k
    · simp [setFieldList, h, List.lookup]
    · have hbeq : (k == k') = false := beq_eq_false_iff_ne.mpr (fun hh => h hh.symm)
      simp [setFieldList, h, List.lookup, hbeq, ih]

theorem setField_obj (fs : List (String × JVal)) (k : String) (v : JVal) :
    setField (.obj fs) k v = .obj (setFieldList fs k v) := rfl

theorem getField_setField_obj (fs : List (String × JVal)) (k : String) (v : JVal) :
    getField (setField (.obj fs) k v) k = v := by
  simp [setField, getField, lookup_setFieldList]

theorem getField_str (s : String) (k : String) : getField (.str s) k = .undefVal := rfl

theorem getField_num (n : Int) (k : String) : getField (.num n) k = .undefVal := rfl

theorem getField_bool (b : Bool) (k : String) : getField (.bool b) k = .undefVal := rfl

theorem getField_null (k : String) : getField .null k = .undefVal := rfl

theorem getField_undefVal (k : String) : getField .undefVal k = .undefVal := rfl

theorem getField_arr (xs : List JVal) (k : String) : getField (.arr xs) k = .undefVal := rfl

theorem getNested_undefVal : ∀ (r : List String), getNested .undefVal r = .undefVal := by
  intro r
  induction r with
  | nil => rfl
  | cons k rest ih => simpa [getNested, getField] using ih

theorem getNested_objEmpty (r : List String) (h : r ≠ []) :
    getNested (.obj []) r = .undefVal := by
  cases r with
  | nil => exact absurd rfl h
  | cons k rest => simpa [getNested, getField] using getNested_undefVal rest

theorem pathOk_objEmpty : ∀ (r : List String), pathOk (.obj []) r = true := by
  intro r
  cases r with
  | nil => rfl
  | cons a t =>
    cases t with
    | nil => rfl
    | cons b t2 => simp [pathOk, getField]

theorem appendNested_single (parse : String → JVal) (fs : List (String × JVal))
    (k value : String) :
    appendNestedValue parse (.obj fs) [k] value =
      setField (.obj fs) k (appendLeaf parse (getField (.obj fs) k) value) := by
  cases hg : getField (.obj fs) k <;> simp [appendNestedValue, hg, appendLeaf]

theorem appendNested_nested (parse : String → JVal) (fs : List (String × JVal))
    (k k2 : String) (rest : List String) (value : String) :
    appendNestedValue parse (.obj fs) (k :: k2 :: rest) value =
      setField (.obj fs) k (appendNestedValue parse
        (if !(jsTruthy (getField (.obj fs) k)) || !(jsTypeofObject (getField (.obj fs) k))
         then JVal.obj [] else getField (.obj fs) k) (k2 :: rest) value) := rfl

theorem childOfObj (f : List (String × JVal)) :
    (if !(jsTruthy (JVal.obj f)) || !(jsTypeofObject (JVal.obj f)) then JVal.obj []
     else JVal.obj f) = JVal.obj f := by
  simp [jsTruthy, jsTypeofObject]

theorem appendNested_obj (parse : String → JVal) (value : String) :
    ∀ (keys : List String) (fs : List (String × JVal)),
      ∃ gs, appendNestedValue parse (.obj fs) keys value = .obj gs := by
  intro keys fs
  match keys with
  | [] => exact ⟨fs, rfl⟩
  | [k] =>
    exact ⟨setFieldList fs k (appendLeaf parse (getField (.obj fs) k) value),
      by rw [appendNested_single, setField_obj]⟩
  | k :: k2 :: rest =>
    exact ⟨setFieldList fs k (appendNestedValue parse
      (if !(jsTruthy (getField (.obj fs) k)) || !(jsTypeofObject (getField (.obj fs) k))
       then JVal.obj [] else getField (.obj fs) k) (k2 :: rest) value),
      by rw [appendNested_nested, setField_obj]⟩

theorem getNested_append (parse : String → JVal) (value : String) :
    ∀ (keys : List String) (fs : List (String × JVal)), keys ≠ [] →
      pathOk (.obj fs) keys = true →
      getNested (appendNestedValue parse (.obj fs) keys value) keys =
        appendLeaf parse (getNested (.obj fs) keys) value := by
  intro keys
  induction keys with
  | nil => intro fs h _; exact absurd rfl h
  | cons k rest ih =>
    intro fs _ hpath
    cases rest with
    | nil =>
      rw [appendNested_single]
      simp only [getNested]
      rw [getField_setField_obj]
    | cons k2 rest2 =>
      cases hg : getField (.obj fs) k with
      | arr xs => simp [pathOk, hg] at hpath
      | obj f =>
        have hsub : pathOk (.obj f) (k2 :: rest2) = true := by
          simpa [pathOk, hg] using hpath
        have hrec := ih f (by simp) hsub
        calc getNested (appendNestedValue parse (.obj fs) (k :: k2 :: rest2) value)
              (k :: k2 :: rest2)
            = getNested (appendNestedValue parse (.obj f) (k2 :: rest2) value)
                (k2 :: rest2) := by
              rw [appendNested_nested, hg, childOfObj]
              simp only [getNested]
              rw [getField_setField_obj]
          _ = appendLeaf parse (getNested (.obj f) (k2 :: rest2)) value := hrec
          _ = appendLeaf parse (getNested (.obj fs) (k :: k2 :: rest2)) value := by
              simp only [getNested]
              rw [hg]
      | str s =>
        have hrec := ih [] (by simp) (pathOk_objEmpty (k2 :: rest2))
        have hif : (if !(jsTruthy (JVal.str s)) || !(jsTypeofObject (JVal.str s))
            then JVal.obj [] else JVal.str s) = JVal.obj [] := by
          simp [jsTruthy, jsTypeofObject]
        calc getNested (appendNestedValue parse (.obj fs) (k :: k2 :: rest2) value)
              (k :: k2 :: rest2)
            = getNested (appendNestedValue parse (.obj []) (k2 :: rest2) value)
                (k2 :: rest2) := by
              rw [appendNested_nested, hg, hif]
              simp only [getNested]
              rw [getField_setField_obj]
          _ = appendLeaf parse (getNested (.obj []) (k2 :: rest2)) value := hrec
          _ = appendLeaf parse (getNested (.obj fs) (k :: k2 :: rest2)) value := by
              rw [getNested_objEmpty (k2 :: rest2) (by simp)]
              simp only [getNested]
              rw [hg, getField_str, getNested_undefVal]
      | num n =>
        have hrec := ih [] (by simp) (pathOk_objEmpty (k2 :: rest2))
        have hif : (if !(jsTruthy (JVal.num n)) || !(jsTypeofObject (JVal.num n))
            then JVal.obj [] else JVal.num n) = JVal.obj [] := by
          simp [jsTruthy, jsTypeofObject]
        calc getNested (appendNestedValue parse (.obj fs) (k :: k2 :: rest2) value)
              (k :: k2 :: rest2)
            = getNested (appendNestedValue parse (.obj []) (k2 :: rest2) value)
                (k2 :: rest2) := by
              rw [appendNested_nested, hg, hif]
              simp only [getNested]
              rw [getField_setField_obj]
          _ = appendLeaf parse (getNested (.obj []) (k2 :: rest2)) value := hrec
          _ = appendLeaf parse (getNested (.obj fs) (k :: k2 :: rest2)) value := by
              rw [getNested_objEmpty (k2 :: rest2) (by simp)]
              simp only [getNested]
              rw [hg, getField_num, getNested_undefVal]
      | bool b =>
        have hrec := ih [] (by simp) (pathOk_objEmpty (k2 :: rest2))
        have hif : (if !(jsTruthy (JVal.bool b)) || !(jsTypeofObject (JVal.bool b))
            then JVal.obj [] else JVal.bool b) = JVal.obj [] := by
          simp [jsTruthy, jsTypeofObject]
        calc getNested (appendNestedValue parse (.obj fs) (k :: k2 :: rest2) value)
              (k :: k2 :: rest2)
            = getNested (appendNestedValue parse (.obj []) (k2 :: rest2) value)
                (k2 :: rest2) := by
              rw [appendNested_nested, hg, hif]
              simp only [getNested]
              rw [getField_setField_obj]
          _ = appendLeaf parse (getNested (.obj []) (k2 :: rest2)) value := hrec
          _ = appendLeaf parse (getNested (.obj fs) (k :: k2 :: rest2)) value := by
              rw [getNested_objEmpty (k2 :: rest2) (by simp)]
              simp only [getNested]
              rw [hg, getField_bool, getNested_undefVal]
      | null =>
        have hrec := ih [] (by simp) (pathOk_objEmpty (k2 :: rest2))
        have hif : (if !(jsTruthy JVal.null) || !(jsTypeofObject JVal.null)
            then JVal.obj [] else JVal.null) = JVal.obj [] := by
          simp [jsTruthy, jsTypeofObject]
        calc getNested (appendNestedValue parse (.obj fs) (k :: k2 :: rest2) value)
              (k :: k2 :: rest2)
            = getNested (appendNestedValue parse (.obj []) (k2 :: rest2) value)
                (k2 :: rest2) := by
              rw [appendNested_nested, hg, hif]
              simp only [getNested]
              rw [getField_setField_obj]
          _ = appendLeaf parse (getNested (.obj []) (k2 :: rest2)) value := hrec
          _ = appendLeaf parse (getNested (.obj fs) (k :: k2 :: rest2)) value := by
              rw [getNested_objEmpty (k2 :: rest2) (by simp)]
              simp only [getNested]
              rw [hg, getField_null, getNested_undefVal]
      | undefVal =>
        have hrec := ih [] (by simp) (pathOk_objEmpty (k2 :: rest2))
        have hif : (if !(jsTruthy JVal.undefVal) || !(jsTypeofObject JVal.undefVal)
            then JVal.obj [] else JVal.undefVal) = JVal.obj [] := by
          simp [jsTruthy, jsTypeofObject]
        calc getNested (appendNestedValue parse (.obj fs) (k :: k2 :: rest2) value)
              (k :: k2 :: rest2)
            = getNested (appendNestedValue parse (.obj []) (k2 :: rest2) value)
                (k2 :: rest2) := by
              rw [appendNested_nested, hg, hif]
              simp only [getNested]
              rw [getField_setField_obj]
          _ = appendLeaf parse (getNested (.obj []) (k2 :: rest2)) value := hrec
          _ = appendLeaf parse (getNested (.obj fs) (k :: k2 :: rest2)) value := by
              rw [getNested_objEmpty (k2 :: rest2) (by simp)]
              simp only [getNested]
              rw [hg, getField_undefVal, getNested_undefVal]

theorem pathOk_append (parse : String → JVal) (value : String) :
    ∀ (keys : List String) (fs : List (String × JVal)),
      pathOk (.obj fs) keys = true →
      pathOk (appendNestedValue parse (.obj fs) keys value) keys = true := by
  intro keys
  induction keys with
  | nil => intro fs _; rfl
  | cons k rest ih =>
    intro fs hpath
    cases rest with
    | nil =>
      rw [appendNested_single, setField_obj]
      rfl
    | cons k2 rest2 =>
      cases hg : getField (.obj fs) k with
      | arr xs => simp [pathOk, hg] at hpath
      | obj f =>
        have hsub : pathOk (.obj f) (k2 :: rest2) = true := by
          simpa [pathOk, hg] using hpath
        obtain ⟨gs, hgs⟩ := appendNested_obj parse value (k2 :: rest2) f
        have hker := ih f hsub
        rw [hgs] at hker
        rw [appendNested_nested, hg, childOfObj]
        simp [pathOk, getField_setField_obj, hgs, hker]
      | str s =>
        have hif : (if !(jsTruthy (JVal.str s)) || !(jsTypeofObject (JVal.str s))
            then JVal.obj [] else JVal.str s) = JVal.obj [] := by
          simp [jsTruthy, jsTypeofObject]
        obtain ⟨gs, hgs⟩ := appendNested_obj parse value (k2 :: rest2) ([] : List (String × JVal))
        have hker := ih [] (pathOk_objEmpty (k2 :: rest2))
        rw [hgs] at hker
        rw [appendNested_nested, hg, hif]
        simp [pathOk, getField_setField_obj, hgs, hker]
      | num n =>
        have hif : (if !(jsTruthy (JVal.num n)) || !(jsTypeofObject (JVal.num n))
            then JVal.obj [] else JVal.num n) = JVal.obj [] := by
          simp [jsTruthy, jsTypeofObject]
        obtain ⟨gs, hgs⟩ := appendNested_obj parse value (k2 :: rest2) ([] : List (String × JVal))
        have hker := ih [] (pathOk_objEmpty (k2 :: rest2))
        rw [hgs] at hker
        rw [appendNested_nested, hg, hif]
        simp [pathOk, getField_setField_obj, hgs, hker]
      | bool b =>
        have hif : (if !(jsTruthy (JVal.bool b)) || !(jsTypeofObject (JVal.bool b))
            then JVal.obj [] else JVal.bool b) = JVal.obj [] := by
          simp [jsTruthy, jsTypeofObject]
        obtain ⟨gs, hgs⟩ := appendNested_obj parse value (k2 :: rest2) ([] : List (String × JVal))
        have hker := ih [] (pathOk_objEmpty (k2 :: rest2))
        rw [hgs] at hker
        rw [appendNested_nested, hg, hif]
        simp [pathOk, getField_setField_obj, hgs, hker]
      | null =>
        have hif : (if !(jsTruthy JVal.null) || !(jsTypeofObject JVal.null)
            then JVal.obj [] else JVal.null) = JVal.obj [] := by
          simp [jsTruthy, jsTypeofObject]
        obtain ⟨gs, hgs⟩ := appendNested_obj parse value (k2 :: rest2) ([] : List (String × JVal))
        have hker := ih [] (pathOk_objEmpty (k2 :: rest2))
        rw [hgs] at hker
        rw [appendNested_nested, hg, hif]
        simp [pathOk, getField_setField_obj, hgs, hker]
      | undefVal =>
        have hif : (if !(jsTruthy JVal.undefVal) || !(jsTypeofObject JVal.undefVal)
            then JVal.obj [] else JVal.undefVal) = JVal.obj [] := by
          simp [jsTruthy, jsTypeofObject]
        obtain ⟨gs, hgs⟩ := appendNested_obj parse value (k2 :: rest2) ([] : List (String × JVal))
        have hker := ih [] (pathOk_objEmpty (k2 :: rest2))
        rw [hgs] at hker
        rw [appendNested_nested, hg, hif]
        simp [pathOk, getField_setField_obj, hgs, hker]

/-- C3 (amended): for every parse function (in particular the source's
`tryParseValue` over the `JSON.parse` and `Number` builtins), on a dot-path
whose leaf is absent, a first frontmatter `append` whose parsed value is
neither a sequence nor a string nor `undefined`, followed by a second
`append`, leaves the leaf equal to the two-element sequence of the two
parsed values in insertion order, and a third `append` on that sequence
leaf grows it by exactly one element.  (First appends of string values
concatenate instead — see `claim_C3_counterexample`; the path hypothesis
`pathOk` excludes descending into an existing array intermediate, which the
embedding does not represent.) -/
theorem claim_C3 (parse : String → JVal) (fs : List (String × JVal))
    (keys : List String) (c1 c2 c3 : String) (v1 : JVal)
    (hk : keys ≠ [])
    (hpath : pathOk (.obj fs) keys = true)
    (habsent : getNested (.obj fs) keys = .undefVal)
    (hv1 : parse c1 = v1)
    (hnotarr : isArr v1 = false) (hnotstr : isStr v1 = false)
    (hnotundefVal : v1 ≠ .undefVal) :
    getNested (appendNestedValue parse (appendNestedValue parse (.obj fs) keys c1)
        keys c2) keys
      = .arr [v1, parse c2]
    ∧ getNested (appendNestedValue parse (appendNestedValue parse
          (appendNestedValue parse (.obj fs) keys c1) keys c2) keys c3) keys
      = .arr [v1, parse c2, parse c3] := by
  obtain ⟨f1, hf1⟩ := appendNested_obj parse c1 keys fs
  have h1 : getNested (appendNestedValue parse (.obj fs) keys c1) keys = v1 := by
    rw [getNested_append parse c1 keys fs hk hpath, habsent]
    simpa [appendLeaf] using hv1
  have hp1 : pathOk (appendNestedValue parse (.obj fs) keys c1) keys = true :=
    pathOk_append parse c1 keys fs hpath
  rw [hf1] at h1 hp1
  have hleaf1 : appendLeaf parse v1 c2 = .arr [v1, parse c2] := by
    cases v1 <;> simp_all [appendLeaf, isArr, isStr]
  have h2 : getNested (appendNestedValue parse (.obj f1) keys c2) keys =
      .arr [v1, parse c2] := by
    rw [getNested_append parse c2 keys f1 hk hp1, h1, hleaf1]
  obtain ⟨f2, hf2⟩ := appendNested_obj parse c2 keys f1
  have hp2 : pathOk (appendNestedValue parse (.obj f1) keys c2) keys = true :=
    pathOk_append parse c2 keys f1 hp1
  rw [hf2] at h2 hp2
  have h3 : getNested (appendNestedValue parse (.obj f2) keys c3) keys =
      .arr [v1, parse c2, parse c3] := by
    rw [getNested_append parse c3 keys f2 hk hp2, h2]
    simp [appendLeaf]
  constructor
  · rw [hf1, hf2]
    exact h2
  · rw [hf1, hf2]
    exact h3

/-- C3 counterexample: the claim as stated fails for string values.  Two
appends of `"a"` then `"b"` on an absent key produce the concatenated
string `"ab"`, not the two-element sequence `["a", "b"]`.  The parse is
instantiated with the flat-literal `tryParseValue`, which agrees with the
builtins here: `JSON.parse` rejects both `"a"` and `"b"`, `Number` yields
`NaN` on both, so the source also parses them to the plain strings. -/
theorem claim_C3_counterexample :
    getNested (appendNestedValue tryParseValue
        (appendNestedValue tryParseValue (.obj []) ["k"] "a") ["k"] "b") ["k"]
      = JVal.str "ab"
    ∧ getNested (appendNestedValue tryParseValue
        (appendNestedValue tryParseValue (.obj []) ["k"] "a") ["k"] "b") ["k"]
      ≠ JVal.arr [JVal.str "a", JVal.str "b"] := by
  have h1 : appendNestedValue tryParseValue (.obj []) ["k"] "a" =
      JVal.obj [("k", JVal.str "a")] := rfl
  have hg : getField (JVal.obj [("k", JVal.str "a")]) "k" = JVal.str "a" := rfl
  have hparse : tryParseValue "b" = JVal.str "b" := rfl
  have hjs : jsToString (JVal.str "b") = "b" := by simp [jsToString]
  have h2 : appendNestedValue tryParseValue (JVal.obj [("k", JVal.str "a")]) ["k"] "b" =
      JVal.obj [("k", JVal.str "ab")] := by
    rw [appendNested_single, hg]
    simp only [appendLeaf]
    rw [hparse, hjs]
    rfl
  rw [h1, h2]
  exact ⟨rfl, fun h => JVal.noConfusion h⟩

/-- C3 witness: numeric values `5`, `7`, `9` on the nested absent path
`meta.k` (the flat-literal `tryParseValue` agrees with `JSON.parse` on
decimal integer literals): two appends coerce to `[5, 7]`, the third grows
it to `[5, 7, 9]`. -/
theorem claim_C3_witness :
    getNested (appendNestedValue tryParseValue (appendNestedValue tryParseValue
        (.obj []) ["meta", "k"] "5") ["meta", "k"] "7") ["meta", "k"]
      = JVal.arr [JVal.num 5, JVal.num 7]
    ∧ getNested (appendNestedValue tryParseValue (appendNestedValue tryParseValue
        (appendNestedValue tryParseValue (.obj []) ["meta", "k"] "5")
        ["meta", "k"] "7") ["meta", "k"] "9") ["meta", "k"]
      = JVal.arr [JVal.num 5, JVal.num 7, JVal.num 9] :=
  claim_C3 tryParseValue [] ["meta", "k"] "5" "7" "9" (JVal.num 5) (by simp)
    (by rfl) (by rfl) (by rfl) (by rfl) (by rfl) (fun h => JVal.noConfusion h)

/-! ### Claim about the search engine (C8) -/

theorem lowerStr_length (lower : Char → Char) (s : Str) :
    (lowerStr lower s).length = s.length := by
  simp [lowerStr]

theorem lowerStr_ne_nil (lower : Char → Char) {s : Str} (h : s ≠ []) :
    lowerStr lower s ≠ [] := by
  simp [lowerStr, h]

theorem startsList_pos_lt {q h : Str} {j : Nat} (hq : q ≠ [])
    (hs : startsList q (h.drop j) = true) : j < h.length := by
  by_contra hnot
  have hle : h.length ≤ j := by omega
  rw [List.drop_eq_nil_iff.mpr hle] at hs
  cases q with
  | nil => exact absurd rfl hq
  | cons a as => simp [startsList] at hs

theorem indexOfAux_some (n h : Str) :
    ∀ (f i j : Nat), indexOfAux n h i f = some j →
      i ≤ j ∧ j ≤ i + f ∧ startsList n (h.drop j) = true ∧
        (∀ m, i ≤ m → m < j → startsList n (h.drop m) = false) := by
  intro f
  induction f with
  | zero =>
    intro i j hij
    simp only [indexOfAux] at hij
    split at hij
    · rename_i hs
      cases hij
      exact ⟨Nat.le_refl _, by omega, hs, fun m h1 h2 => by omega⟩
    · exact absurd hij (by simp)
  | succ f ih =>
    intro i j hij
    simp only [indexOfAux] at hij
    split at hij
    · rename_i hs
      cases hij
      exact ⟨Nat.le_refl _, by omega, hs, fun m h1 h2 => by omega⟩
    · rename_i hs
      obtain ⟨h1, h2, h3, h4⟩ := ih (i + 1) j hij
      refine ⟨by omega, by omega, h3, ?_⟩
      intro m hm1 hm2
      by_cases hmi : m = i
      · subst hmi
        exact Bool.eq_false_iff.mpr hs
      · exact h4 m (by omega) hm2

theorem indexOfAux_none (n h : Str) :
    ∀ (f i : Nat), indexOfAux n h i f = none →
      ∀ m, i ≤ m → m ≤ i + f → startsList n (h.drop m) = false := by
  intro f
  induction f with
  | zero =>
    intro i hnone m hm1 hm2
    simp only [indexOfAux] at hnone
    split at hnone
    · exact absurd hnone (by simp)
    · rename_i hs
      have hmi : m = i := by omega
      subst hmi
      exact Bool.eq_false_iff.mpr hs
  | succ f ih =>
    intro i hnone m hm1 hm2
    simp only [indexOfAux] at hnone
    split at hnone
    · exact absurd hnone (by simp)
    · rename_i hs
      by_cases hmi : m = i
      · subst hmi
        exact Bool.eq_false_iff.mpr hs
      · exact ih (i + 1) hnone m (by omega) (by omega)

theorem indexOfFrom_eq_aux (n h : Str) (i : Nat) :
    indexOfFrom n h i = indexOfAux n h (min i h.length) (h.length - min i h.length) := rfl

theorem occFrom_shift (lower : Char → Char) (q c : Str) (i : Nat)
    (h : startsList (lowerStr lower q) ((lowerStr lower c).drop i) = false) :
    occFrom lower q c i = occFrom lower q c (i + 1) := by
  unfold occFrom
  apply List.filter_congr
  intro m _
  by_cases hmi : m = i
  · subst hmi
    simp [h]
  · rw [show (decide (i ≤ m)) = (decide (i + 1 ≤ m)) from
      decide_eq_decide.mpr (by omega)]

theorem occFrom_shift_upto (lower : Char → Char) (q c : Str) :
    ∀ (d i : Nat),
      (∀ m, i ≤ m → m < i + d →
        startsList (lowerStr lower q) ((lowerStr lower c).drop m) = false) →
      occFrom lower q c i = occFrom lower q c (i + d) := by
  intro d
  induction d with
  | zero => intro i _; rfl
  | succ d ih =>
    intro i hm
    rw [occFrom_shift lower q c i (hm i (Nat.le_refl i) (by omega))]
    rw [ih (i + 1) (fun m h1 h2 => hm m (by omega) (by omega))]
    congr 1
    omega

theorem filter_range_extract (p : Nat → Bool) :
    ∀ (n j : Nat), j < n → p j = true →
      (List.range n).filter (fun m => decide (j ≤ m) && p m) =
        j :: (List.range n).filter (fun m => decide (j + 1 ≤ m) && p m) := by
  intro n
  induction n with
  | zero => intro j hj _; omega
  | succ n ih =>
    intro j hj hp
    rw [List.range_succ, List.filter_append, List.filter_append]
    by_cases hjn : j < n
    · rw [ih j hjn hp]
      have heq : (List.filter (fun m => decide (j ≤ m) && p m) [n]) =
          (List.filter (fun m => decide (j + 1 ≤ m) && p m) [n]) := by
        simp only [List.filter]
        rw [show (decide (j ≤ n)) = (decide (j + 1 ≤ n)) from
          decide_eq_decide.mpr (by omega)]
      rw [heq]
      simp
    · have hjn' : j = n := by omega
      subst hjn'
      have hleft : (List.range j).filter (fun m => decide (j ≤ m) && p m) = [] := by
        rw [List.filter_eq_nil_iff]
        intro a ha
        simp only [List.mem_range] at ha
        simp [Nat.not_le.mpr ha]
      have hleft' : (List.range j).filter
          (fun m => decide (j + 1 ≤ m) && p m) = [] := by
        rw [List.filter_eq_nil_iff]
        intro a ha
        simp only [List.mem_range] at ha
        simp [show ¬(j + 1 ≤ a) by omega]
      rw [hleft, hleft']
      simp [List.filter, hp, show ¬(j + 1 ≤ j) by omega]

theorem occFrom_cons (lower : Char → Char) (q c : Str) (i j : Nat)
    (hij : i ≤ j) (hj : j < c.length)
    (hpj : startsList (lowerStr lower q) ((lowerStr lower c).drop j) = true)
    (hmin : ∀ m, i ≤ m → m < j →
      startsList (lowerStr lower q) ((lowerStr lower c).drop m) = false) :
    occFrom lower q c i = j :: occFrom lower q c (j + 1) := by
  have hd := occFrom_shift_upto lower q c (j - i) i
    (fun m h1 h2 => hmin m h1 (by omega))
  rw [show i + (j - i) = j from by omega] at hd
  rw [hd]
  exact filter_range_extract _ c.length j hj hpj

theorem occFrom_nil (lower : Char → Char) (q c : Str) (i : Nat)
    (h : ∀ m, i ≤ m → m < c.length →
      startsList (lowerStr lower q) ((lowerStr lower c).drop m) = false) :
    occFrom lower q c i = [] := by
  unfold occFrom
  rw [List.filter_eq_nil_iff]
  intro a ha
  simp only [List.mem_range] at ha
  by_cases hia : i ≤ a
  · simp [h a hia ha]
  · simp [hia]

theorem specOccurrences_eq_occFrom (lower : Char → Char) (q c : Str) :
    specOccurrences lower q c = occFrom lower q c 0 := by
  unfold specOccurrences occFrom
  apply List.filter_congr
  intro a _
  simp

theorem searchLoop_spec (lower : Char → Char) (file : String) (q c : Str)
    (cl : Nat) (hq : q ≠ []) :
    ∀ (f i : Nat) (acc : List SearchHit), i ≤ c.length → c.length + 1 ≤ f + i →
      searchLoop lower file q c (lowerStr lower c) cl f
        (indexOfFrom (lowerStr lower q) (lowerStr lower c) i) acc =
      some (acc.reverse ++ (occFrom lower q c i).map (fun j => mkHit file c q cl j)) := by
  intro f
  induction f with
  | zero => intro i acc hi hf; omega
  | succ f ih =>
    intro i acc hi hf
    have hmin : min i (lowerStr lower c).length = i := by
      rw [lowerStr_length]
      omega
    cases hidx : indexOfFrom (lowerStr lower q) (lowerStr lower c) i with
    | none =>
      rw [indexOfFrom_eq_aux, hmin] at hidx
      have hnone := indexOfAux_none (lowerStr lower q) (lowerStr lower c) _ _ hidx
      have hocc : occFrom lower q c i = [] := by
        apply occFrom_nil
        intro m hm1 hm2
        exact hnone m hm1 (by rw [lowerStr_length]; omega)
      rw [hocc]
      simp [searchLoop]
    | some j =>
      rw [indexOfFrom_eq_aux, hmin] at hidx
      obtain ⟨hj1, hj2, hj3, hj4⟩ :=
        indexOfAux_some (lowerStr lower q) (lowerStr lower c) _ _ _ hidx
      have hjlt : j < c.length := by
        have := startsList_pos_lt (lowerStr_ne_nil lower hq) hj3
        rw [lowerStr_length] at this
        exact this
      have hrec := ih (j + 1) (mkHit file c q cl j :: acc) (by omega) (by omega)
      have hocc : occFrom lower q c i = j :: occFrom lower q c (j + 1) :=
        occFrom_cons lower q c i j hj1 hjlt hj3 hj4
      simp only [searchLoop]
      rw [hrec, hocc]
      simp

theorem simpleSearchDoc_spec (lower : Char → Char) (file : String) (q c : Str)
    (cl : Nat) (hq : q ≠ []) :
    simpleSearchDoc lower file q c cl =
      some ((specOccurrences lower q c).map (fun j => mkHit file c q cl j)) := by
  have h := searchLoop_spec lower file q c cl hq (c.length + 1) 0 [] (by omega) (by omega)
  simpa [simpleSearchDoc, specOccurrences_eq_occFrom] using h

/-- C8 (amended): for every non-empty query and every character-wise case
map (the builtin `toLowerCase`), `simple_search` terminates and returns,
file by file, one result per case-insensitive occurrence of the query (the
ascending occurrence positions of the lowercased query in the lowercased
content), each carrying the originating path, the match offset, and the
context window `substring(max(0, i - contextLength),
min(length, i + |query| + contextLength))` with the source's case preserved.
(For the empty query the source's scan loop never terminates — see
`claim_C8_counterexample` and `searchLoop_nil_query_none`.) -/
theorem claim_C8 (lower : Char → Char) (files : List (String × Str))
    (query : Str) (cl : Nat) (hq : query ≠ []) :
    simpleSearch lower files query cl =
      some (files.flatMap
        (fun pc => (specOccurrences lower query pc.2).map
          (fun j => mkHit pc.1 pc.2 query cl j))) := by
  induction files with
  | nil => simp [simpleSearch]
  | cons pc rest ih =>
    obtain ⟨p, c⟩ := pc
    simp [simpleSearch, simpleSearchDoc_spec lower p query c cl hq, ih]

theorem indexOfFrom_nil (hay : Str) (s : Nat) :
    indexOfFrom [] hay s = some (min s hay.length) := by
  rw [indexOfFrom_eq_aux]
  cases hfuel : hay.length - min s hay.length <;> simp [indexOfAux, startsList]

/-- The `simple_search` scan loop never exits once entered with an empty
query, whatever fuel it is given: `indexOf` of the empty string never
returns `-1`.  The fuel-exhausted `none` of the embedding therefore marks
genuine non-termination of the source loop. -/
theorem searchLoop_nil_query_none (lower : Char → Char) (file : String)
    (c lc : Str) (cl : Nat) :
    ∀ (f i : Nat) (acc : List SearchHit),
      searchLoop lower file [] c lc cl f (some i) acc = none := by
  intro f
  induction f with
  | zero => intro i acc; rfl
  | succ f ih =>
    intro i acc
    simp only [searchLoop, lowerStr, List.map_nil]
    rw [indexOfFrom_nil]
    exact ih (min (i + 1) lc.length) _

/-- C8 counterexample: the claim as stated fails for the empty query.  On a
vault holding one non-empty document, `simple_search` with the empty query
never returns (the embedding reports fuel exhaustion, and
`searchLoop_nil_query_none` shows no amount of fuel finishes), so no result
list satisfying the claim is ever produced. -/
theorem claim_C8_counterexample :
    simpleSearch Char.toLower [("a.md", "x".toList)] [] 2 = none := by
  rfl

/-- C8 witness: query `cat` over `Cat cat scatter` with context length 2
(`Char.toLower` agrees with the builtin case map on these ASCII strings) —
three results at ascending positions 0, 4, 9 with clipped, case-preserving
windows. -/
theorem claim_C8_witness :
    ("cat".toList : Str) ≠ []
    ∧ simpleSearch Char.toLower [("doc.md", "Cat cat scatter".toList)]
        ("cat".toList) 2 =
        some [⟨"doc.md", "Cat c".toList, 0⟩,
              ⟨"doc.md", "t cat s".toList, 4⟩,
              ⟨"doc.md", " scatte".toList, 9⟩] := by
  refine ⟨by decide, ?_⟩
  exact (claim_C8 Char.toLower [("doc.md", "Cat cat scatter".toList)]
    ("cat".toList) 2 (by decide)).trans (by decide)

end ObsidianMCP
